import Mathlib

/-!
Treap of `ConsoleApplication1.cpp`.

A shallow embedding of the treap of `ConsoleApplication1.cpp` (`split`, `insert`,
`merge`, `erase`, `unite`) and the properties of it that hold on the code.

Conventions of the embedding.

* `pitem` is the source's `item*`: either `NULL` or an exclusively owned `item` with
  its `key`, `prior` and the two children.  The source never shares a node between
  two trees, so the destructive pointer updates are modelled by returning the new
  tree(s).
* `int` is modelled by `Int`.  The code only compares keys and priorities, it does
  no arithmetic on them, so no overflow can occur.
* A reference parameter (`pitem&`) that the function assigns becomes a result.
* `erase` dereferences `t` without testing it; that null dereference is the result
  `none`.
-/

namespace Treap

/-- The source's `pitem`: `null` is `NULL`, `item key prior l r` is a pointer to an
`item` with those four fields. -/
inductive pitem where
  | null : pitem
  | item (key prior : Int) (l r : pitem) : pitem
deriving DecidableEq, Repr

open pitem

/-- Source `split(t, key, l, r)`; the pair is the final value of `(l, r)`.
An item goes to `r` when `key < t->key` and to `l` otherwise. -/
def split : pitem → Int → pitem × pitem
  | null, _ => (null, null)
  | item k p l r, key =>
    if key < k then
      ((split l key).1, item k p (split l key).2 r)
    else
      (item k p l (split r key).1, (split r key).2)

/-- Source `insert(t, it)` for a non-null `it`, which is given by its four fields
`key prior l r`; the result is the final value of `t`. -/
def insert : pitem → Int → Int → pitem → pitem → pitem
  | null, key, prior, l, r => item key prior l r
  | item tk tp tl tr, key, prior, l, r =>
    if prior > tp then
      item key prior (split (item tk tp tl tr) key).1 (split (item tk tp tl tr) key).2
    else if key < tk then
      item tk tp (insert tl key prior l r) tr
    else
      item tk tp tl (insert tr key prior l r)

/-- Number of items of a tree. -/
def size : pitem → Nat
  | null => 0
  | item _ _ l r => size l + 1 + size r

/-- Source `merge(t, l, r)`; the result is the final value of `t`. -/
def merge : pitem → pitem → pitem
  | null, r => r
  | item lk lp ll lr, null => item lk lp ll lr
  | item lk lp ll lr, item rk rp rl rr =>
    if lp > rp then
      item lk lp ll (merge lr (item rk rp rl rr))
    else
      item rk rp (merge (item lk lp ll lr) rl) rr
termination_by l r => size l + size r
decreasing_by
  all_goals simp_wf
  all_goals simp only [size]
  all_goals omega

/-- Source `erase(t, key)`; `some` holds the final value of `t`, and `none` says
that the descent reached `t == NULL`, where the source evaluates `t->key`. -/
def erase : pitem → Int → Option pitem
  | null, _ => none
  | item k p l r, key =>
    if k = key then
      some (merge l r)
    else if key < k then
      (erase l key).map (fun l' => item k p l' r)
    else
      (erase r key).map (fun r' => item k p l r')

/-- The two trees that `split` returns have together as many items as its input. -/
theorem size_split (t : pitem) (key : Int) :
    size (split t key).1 + size (split t key).2 = size t := by
  induction t with
  | null => simp [split, size]
  | item k p l r ihl ihr =>
    by_cases h : key < k
    · simp only [split, h, if_true, size]; omega
    · simp only [split, h, if_false, size]; omega

/-- Source `unite(l, r)`.  The source swaps `l` and `r` when `l->prior < r->prior`;
the first branch below is the body after that swap. -/
def unite : pitem → pitem → pitem
  | null, r => r
  | item lk lp ll lr, null => item lk lp ll lr
  | item lk lp ll lr, item rk rp rl rr =>
    if lp < rp then
      item rk rp (unite rl (split (item lk lp ll lr) rk).1)
                 (unite rr (split (item lk lp ll lr) rk).2)
    else
      item lk lp (unite ll (split (item rk rp rl rr) lk).1)
                 (unite lr (split (item rk rp rl rr) lk).2)
termination_by l r => size l + size r
decreasing_by
  all_goals simp_wf
  · have h := size_split (item lk lp ll lr) rk
    simp only [size] at h ⊢; omega
  · have h := size_split (item lk lp ll lr) rk
    simp only [size] at h ⊢; omega
  · have h := size_split (item rk rp rl rr) lk
    simp only [size] at h ⊢; omega
  · have h := size_split (item rk rp rl rr) lk
    simp only [size] at h ⊢; omega

/-- In-order traversal: the items as `(key, prior)` pairs. -/
def nodes : pitem → List (Int × Int)
  | null => []
  | item k p l r => nodes l ++ (k, p) :: nodes r

/-- In-order traversal of the keys. -/
def keys (t : pitem) : List Int := (nodes t).map Prod.fst

/-- BST invariant: at every item the keys of the left subtree are strictly less
than its key and the keys of the right subtree are strictly greater. -/
def BST : pitem → Prop
  | null => True
  | item k _ l r => (∀ x ∈ keys l, x < k) ∧ (∀ x ∈ keys r, k < x) ∧ BST l ∧ BST r

/-- The root of `t`, if there is one, has priority at most `q`. -/
def rootLe : pitem → Int → Prop
  | null, _ => True
  | item _ p _ _, q => p ≤ q

/-- Heap invariant: the priority of every item is at least the priority of each
of its children. -/
def Heap : pitem → Prop
  | null => True
  | item _ p l r => rootLe l p ∧ rootLe r p ∧ Heap l ∧ Heap r

instance rootLe.decide (t : pitem) (q : Int) : Decidable (rootLe t q) :=
  match t with
  | null => isTrue trivial
  | item _ p _ _ => inferInstanceAs (Decidable (p ≤ q))

instance BST.decide : (t : pitem) → Decidable (BST t)
  | null => isTrue trivial
  | item k _ l r =>
    have := BST.decide l
    have := BST.decide r
    inferInstanceAs
      (Decidable ((∀ x ∈ keys l, x < k) ∧ (∀ x ∈ keys r, k < x) ∧ BST l ∧ BST r))

instance Heap.decide : (t : pitem) → Decidable (Heap t)
  | null => isTrue trivial
  | item _ p l r =>
    have := Heap.decide l
    have := Heap.decide r
    inferInstanceAs (Decidable (rootLe l p ∧ rootLe r p ∧ Heap l ∧ Heap r))

/-- Source `new item(key, prior)` followed by `insert(t, add)`, as `main` does. -/
def insertNew (t : pitem) (key prior : Int) : pitem := insert t key prior null null

/-- The tree after inserting the `(key, prior)` pairs of a list one after another
into the empty tree. -/
def build (xs : List (Int × Int)) : pitem :=
  xs.foldl (fun t x => insertNew t x.1 x.2) null

/-- The tree of `main`'s distinct keys: 1 (priority 100), 2 (200), 3 (700) inserted
in that order. -/
def tree123 : pitem := build [(1, 100), (2, 200), (3, 700)]

/-- The root of `t`, if there is one, has priority strictly below `q`. -/
def rootLt : pitem → Int → Prop
  | null, _ => True
  | item _ p _ _, q => p < q

/-- Strict heap invariant: the priority of every item is strictly greater than the
priority of each of its children. -/
def StrictHeap : pitem → Prop
  | null => True
  | item _ p l r => rootLt l p ∧ rootLt r p ∧ StrictHeap l ∧ StrictHeap r

instance rootLt.decide (t : pitem) (q : Int) : Decidable (rootLt t q) :=
  match t with
  | null => isTrue trivial
  | item _ p _ _ => inferInstanceAs (Decidable (p < q))

instance StrictHeap.decide : (t : pitem) → Decidable (StrictHeap t)
  | null => isTrue trivial
  | item _ p l r =>
    have := StrictHeap.decide l
    have := StrictHeap.decide r
    inferInstanceAs (Decidable (rootLt l p ∧ rootLt r p ∧ StrictHeap l ∧ StrictHeap r))

/-- Source `unite(l, r)` run with a bound on the depth of the recursion: every call
uses up one level, and `none` says that the levels ran out before the call
returned. -/
def uniteDepth : Nat → pitem → pitem → Option pitem
  | 0, _, _ => none
  | _ + 1, null, r => some r
  | _ + 1, item lk lp ll lr, null => some (item lk lp ll lr)
  | n + 1, item lk lp ll lr, item rk rp rl rr =>
    if lp < rp then
      match uniteDepth n rl (split (item lk lp ll lr) rk).1,
            uniteDepth n rr (split (item lk lp ll lr) rk).2 with
      | some a, some b => some (item rk rp a b)
      | _, _ => none
    else
      match uniteDepth n ll (split (item rk rp rl rr) lk).1,
            uniteDepth n lr (split (item rk rp rl rr) lk).2 with
      | some a, some b => some (item lk lp a b)
      | _, _ => none

/-! ## In-order traversal and the invariants -/

@[simp] theorem nodes_null : nodes null = [] := rfl

@[simp] theorem nodes_item (k p : Int) (l r : pitem) :
    nodes (item k p l r) = nodes l ++ (k, p) :: nodes r := rfl

@[simp] theorem keys_null : keys null = [] := rfl

@[simp] theorem keys_item (k p : Int) (l r : pitem) :
    keys (item k p l r) = keys l ++ k :: keys r := by
  simp [keys]

theorem mem_keys_iff {t : pitem} {x : Int} : x ∈ keys t ↔ ∃ q, (x, q) ∈ nodes t := by
  simp [keys]

/-- The BST invariant says that the in-order key sequence is strictly ascending. -/
theorem BST_iff_sorted (t : pitem) : BST t ↔ (keys t).Sorted (· < ·) := by
  induction t with
  | null => simp [BST]
  | item k p l r ihl ihr =>
    simp only [BST, keys_item, List.Sorted, List.pairwise_append, List.pairwise_cons,
      List.mem_cons] at *
    rw [ihl, ihr]
    constructor
    · rintro ⟨hl, hr, sl, sr⟩
      refine ⟨sl, ⟨hr, sr⟩, ?_⟩
      rintro a ha b (rfl | hb)
      · exact hl a ha
      · exact lt_trans (hl a ha) (hr b hb)
    · rintro ⟨sl, ⟨hr, sr⟩, h⟩
      exact ⟨fun a ha => h a ha k (Or.inl rfl), hr, sl, sr⟩

theorem sorted_le_of_BST {t : pitem} (h : BST t) : (keys t).Sorted (· ≤ ·) :=
  ((BST_iff_sorted t).1 h).imp (fun hab => le_of_lt hab)

/-- What non-decreasing in-order keys mean at an item. -/
theorem sorted_le_item {k p : Int} {l r : pitem}
    (h : (keys (item k p l r)).Sorted (· ≤ ·)) :
    (keys l).Sorted (· ≤ ·) ∧ (keys r).Sorted (· ≤ ·) ∧
      (∀ x ∈ nodes l, x.1 ≤ k) ∧ (∀ x ∈ nodes r, k ≤ x.1) := by
  simp only [keys_item, List.Sorted, List.pairwise_append, List.pairwise_cons,
    List.mem_cons] at h
  obtain ⟨sl, ⟨hr, sr⟩, hlr⟩ := h
  refine ⟨sl, sr, ?_, ?_⟩
  · intro x hx
    exact hlr x.1 (mem_keys_iff.2 ⟨x.2, hx⟩) k (Or.inl rfl)
  · intro x hx
    exact hr x.1 (mem_keys_iff.2 ⟨x.2, hx⟩)

theorem size_eq_length (t : pitem) : size t = (nodes t).length := by
  induction t with
  | null => rfl
  | item k p l r ihl ihr => simp [size, ihl, ihr]; omega

/-! ## split -/

theorem filter_le_all {xs : List (Int × Int)} {key : Int} (h : ∀ x ∈ xs, x.1 ≤ key) :
    xs.filter (fun x => decide (x.1 ≤ key)) = xs := by
  rw [List.filter_eq_self]
  intro x hx
  simpa using h x hx

theorem filter_le_none {xs : List (Int × Int)} {key : Int} (h : ∀ x ∈ xs, key < x.1) :
    xs.filter (fun x => decide (x.1 ≤ key)) = [] := by
  rw [List.filter_eq_nil_iff]
  intro x hx
  simpa using h x hx

theorem filter_gt_all {xs : List (Int × Int)} {key : Int} (h : ∀ x ∈ xs, key < x.1) :
    xs.filter (fun x => decide (key < x.1)) = xs := by
  rw [List.filter_eq_self]
  intro x hx
  simpa using h x hx

theorem filter_gt_none {xs : List (Int × Int)} {key : Int} (h : ∀ x ∈ xs, x.1 ≤ key) :
    xs.filter (fun x => decide (key < x.1)) = [] := by
  rw [List.filter_eq_nil_iff]
  intro x hx
  simpa using h x hx

/-- On a tree with non-decreasing in-order keys, `split` returns in `l` the items
with key at most `key` and in `r` the items with key above `key`, in order. -/
theorem split_nodes (t : pitem) (key : Int) (h : (keys t).Sorted (· ≤ ·)) :
    nodes (split t key).1 = (nodes t).filter (fun x => decide (x.1 ≤ key)) ∧
    nodes (split t key).2 = (nodes t).filter (fun x => decide (key < x.1)) := by
  induction t with
  | null => simp [split]
  | item k p l r ihl ihr =>
    obtain ⟨sl, sr, hl, hr⟩ := sorted_le_item h
    by_cases hk : key < k
    · have hr1 : ∀ x ∈ (k, p) :: nodes r, key < x.1 := by
        intro x hx
        rcases List.mem_cons.1 hx with rfl | hx
        · exact hk
        · exact lt_of_lt_of_le hk (hr x hx)
      simp only [split, hk, if_true, nodes_item, List.filter_append]
      rw [filter_le_none hr1, filter_gt_all hr1, (ihl sl).1, (ihl sl).2]
      simp
    · have hk1 : k ≤ key := not_lt.1 hk
      have hl1 : ∀ x ∈ nodes l, x.1 ≤ key := fun x hx => le_trans (hl x hx) hk1
      simp only [split, hk, if_false, nodes_item, List.filter_append]
      rw [filter_le_all hl1, filter_gt_none hl1, List.filter_cons, List.filter_cons,
        (ihr sr).1, (ihr sr).2]
      simp [hk1, hk]

theorem split_keys (t : pitem) (key : Int) (h : (keys t).Sorted (· ≤ ·)) :
    keys (split t key).1 = (keys t).filter (fun x => decide (x ≤ key)) ∧
    keys (split t key).2 = (keys t).filter (fun x => decide (key < x)) := by
  unfold keys
  rw [(split_nodes t key h).1, (split_nodes t key h).2, List.filter_map, List.filter_map]
  exact ⟨rfl, rfl⟩

/-- The two results of `split` hold the items of the input, none lost and none
twice. -/
theorem split_perm (t : pitem) (key : Int) :
    (nodes (split t key).1 ++ nodes (split t key).2).Perm (nodes t) := by
  induction t with
  | null => simp [split]
  | item k p l r ihl ihr =>
    by_cases hk : key < k
    · simp only [split, hk, if_true, nodes_item]
      rw [← List.append_assoc]
      exact ihl.append_right _
    · simp only [split, hk, if_false, nodes_item]
      rw [List.append_assoc, List.cons_append]
      exact (ihr.cons (k, p)).append_left _

theorem mem_split_fst {t : pitem} {key : Int} {x : Int × Int}
    (h : x ∈ nodes (split t key).1) : x ∈ nodes t :=
  (split_perm t key).subset (List.mem_append_left _ h)

theorem mem_split_snd {t : pitem} {key : Int} {x : Int × Int}
    (h : x ∈ nodes (split t key).2) : x ∈ nodes t :=
  (split_perm t key).subset (List.mem_append_right _ h)

/-! ## The heap invariant -/

theorem rootLe_mono {t : pitem} {p q : Int} (h : rootLe t p) (hpq : p ≤ q) : rootLe t q := by
  cases t with
  | null => trivial
  | item k a l r => exact le_trans h hpq

/-- In a heap every priority is bounded by a bound of the root priority. -/
theorem Heap.all_le {t : pitem} {q : Int} (h : Heap t) (hq : rootLe t q) :
    ∀ x ∈ nodes t, x.2 ≤ q := by
  induction t generalizing q with
  | null => simp
  | item k p l r ihl ihr =>
    obtain ⟨hl, hr, Hl, Hr⟩ := h
    have hpq : p ≤ q := hq
    intro x hx
    simp only [nodes_item, List.mem_append, List.mem_cons] at hx
    rcases hx with hx | rfl | hx
    · exact ihl Hl (rootLe_mono hl hpq) x hx
    · exact hpq
    · exact ihr Hr (rootLe_mono hr hpq) x hx

theorem rootLe_of_all {t : pitem} {q : Int} (h : ∀ x ∈ nodes t, x.2 ≤ q) : rootLe t q := by
  cases t with
  | null => trivial
  | item k p l r => exact h (k, p) (by simp)

/-- Both results of `split` on a heap are heaps; the keys play no part. -/
theorem split_heap (t : pitem) (key : Int) (h : Heap t) :
    Heap (split t key).1 ∧ Heap (split t key).2 := by
  induction t with
  | null => simp [split, Heap]
  | item k p l r ihl ihr =>
    obtain ⟨hl, hr, Hl, Hr⟩ := h
    by_cases hk : key < k
    · simp only [split, hk, if_true]
      refine ⟨(ihl Hl).1, ?_, hr, (ihl Hl).2, Hr⟩
      exact rootLe_of_all (fun x hx => Heap.all_le Hl hl x (mem_split_snd hx))
    · simp only [split, hk, if_false]
      refine ⟨⟨hl, ?_, Hl, (ihr Hr).1⟩, (ihr Hr).2⟩
      exact rootLe_of_all (fun x hx => Heap.all_le Hr hr x (mem_split_fst hx))

/-! ## insert -/

/-- The new item is added and no item is lost, whatever the tree. -/
theorem insertNew_perm (t : pitem) (k p : Int) :
    (nodes (insertNew t k p)).Perm ((k, p) :: nodes t) := by
  unfold insertNew
  induction t with
  | null => simp [insert]
  | item tk tp tl tr ihl ihr =>
    by_cases h1 : p > tp
    · simp only [insert, h1, if_true, nodes_item]
      have h := split_perm (item tk tp tl tr) k
      simp only [nodes_item] at h
      exact List.perm_middle.trans (h.cons (k, p))
    · by_cases h2 : k < tk
      · simp only [insert, h1, h2, if_true, if_false, nodes_item]
        exact (ihl.append_right _)
      · simp only [insert, h1, h2, if_false, nodes_item]
        refine ((ihr.cons (tk, tp)).append_left _).trans ?_
        refine (List.perm_middle.trans ?_)
        refine ((List.perm_middle (a := (k, p))).cons (tk, tp)).trans ?_
        exact (List.Perm.swap _ _ _).trans ((List.perm_middle.symm).cons (k, p))

/-- On non-decreasing in-order keys the new item is placed after all items with key
at most its own and before all items with a greater key. -/
theorem insertNew_nodes (t : pitem) (k p : Int) (h : (keys t).Sorted (· ≤ ·)) :
    nodes (insertNew t k p) =
      (nodes t).filter (fun x => decide (x.1 ≤ k)) ++
        (k, p) :: (nodes t).filter (fun x => decide (k < x.1)) := by
  unfold insertNew
  induction t with
  | null => simp [insert]
  | item tk tp tl tr ihl ihr =>
    obtain ⟨sl, sr, hl, hr⟩ := sorted_le_item h
    by_cases h1 : p > tp
    · simp only [insert, h1, if_true]
      rw [nodes_item, (split_nodes _ k h).1, (split_nodes _ k h).2]
    · by_cases h2 : k < tk
      · have hr1 : ∀ x ∈ (tk, tp) :: nodes tr, k < x.1 := by
          intro x hx
          rcases List.mem_cons.1 hx with rfl | hx
          · exact h2
          · exact lt_of_lt_of_le h2 (hr x hx)
        simp only [insert, h1, h2, if_true, if_false, nodes_item, List.filter_append]
        rw [filter_le_none hr1, filter_gt_all hr1, ihl sl]
        simp
      · have hk1 : tk ≤ k := not_lt.1 h2
        have hl1 : ∀ x ∈ nodes tl, x.1 ≤ k := fun x hx => le_trans (hl x hx) hk1
        simp only [insert, h1, h2, if_false, nodes_item, List.filter_append]
        rw [filter_le_all hl1, filter_gt_none hl1, List.filter_cons, List.filter_cons, ihr sr]
        simp [hk1, h2]

theorem insertNew_keys (t : pitem) (k p : Int) (h : (keys t).Sorted (· ≤ ·)) :
    keys (insertNew t k p) =
      (keys t).filter (fun x => decide (x ≤ k)) ++
        k :: (keys t).filter (fun x => decide (k < x)) := by
  unfold keys
  rw [insertNew_nodes t k p h, List.map_append, List.map_cons, List.filter_map,
    List.filter_map]
  rfl

/-- Placing `k` between the elements at most `k` and those above `k` keeps a
non-decreasing list non-decreasing. -/
theorem sorted_le_place (xs : List Int) (k : Int) (h : xs.Sorted (· ≤ ·)) :
    (xs.filter (fun x => decide (x ≤ k)) ++
      k :: xs.filter (fun x => decide (k < x))).Sorted (· ≤ ·) := by
  simp only [List.Sorted, List.pairwise_append, List.pairwise_cons, List.mem_cons]
  refine ⟨h.sublist (List.filter_sublist _), ⟨?_, h.sublist (List.filter_sublist _)⟩, ?_⟩
  · intro b hb
    have := (List.mem_filter.1 hb).2
    simp only [decide_eq_true_eq] at this
    exact le_of_lt this
  · intro a ha b hb
    have ha1 := (List.mem_filter.1 ha).2
    simp only [decide_eq_true_eq] at ha1
    rcases hb with rfl | hb
    · exact ha1
    · have hb1 := (List.mem_filter.1 hb).2
      simp only [decide_eq_true_eq] at hb1
      exact le_trans ha1 (le_of_lt hb1)

/-- The same with a strictly ascending list and a `k` that is not in it. -/
theorem sorted_lt_place (xs : List Int) (k : Int) (h : xs.Sorted (· < ·)) (hk : k ∉ xs) :
    (xs.filter (fun x => decide (x ≤ k)) ++
      k :: xs.filter (fun x => decide (k < x))).Sorted (· < ·) := by
  simp only [List.Sorted, List.pairwise_append, List.pairwise_cons, List.mem_cons]
  refine ⟨h.sublist (List.filter_sublist _), ⟨?_, h.sublist (List.filter_sublist _)⟩, ?_⟩
  · intro b hb
    have := (List.mem_filter.1 hb).2
    simpa using this
  · intro a ha b hb
    have ha0 := (List.mem_filter.1 ha).1
    have ha1 := (List.mem_filter.1 ha).2
    simp only [decide_eq_true_eq] at ha1
    have ha2 : a < k := lt_of_le_of_ne ha1 (fun e => hk (e ▸ ha0))
    rcases hb with rfl | hb
    · exact ha2
    · have hb1 := (List.mem_filter.1 hb).2
      simp only [decide_eq_true_eq] at hb1
      exact lt_trans ha2 hb1

theorem insertNew_sorted_le (t : pitem) (k p : Int) (h : (keys t).Sorted (· ≤ ·)) :
    (keys (insertNew t k p)).Sorted (· ≤ ·) := by
  rw [insertNew_keys t k p h]
  exact sorted_le_place _ k h

theorem insertNew_BST (t : pitem) (k p : Int) (h : BST t) (hk : k ∉ keys t) :
    BST (insertNew t k p) := by
  rw [BST_iff_sorted, insertNew_keys t k p (sorted_le_of_BST h)]
  exact sorted_lt_place _ k ((BST_iff_sorted t).1 h) hk

theorem insertNew_keys_perm (t : pitem) (k p : Int) :
    (keys (insertNew t k p)).Perm (k :: keys t) := by
  have h := (insertNew_perm t k p).map Prod.fst
  simpa [keys] using h

/-- After `insert` on a heap the tree is a heap, and its root priority is bounded
by any bound of the old root priority and the new priority. -/
theorem insertNew_heap (t : pitem) (k p : Int) (h : Heap t) :
    Heap (insertNew t k p) ∧ ∀ q, rootLe t q → p ≤ q → rootLe (insertNew t k p) q := by
  unfold insertNew
  induction t with
  | null =>
    simp only [insert]
    exact ⟨⟨trivial, trivial, trivial, trivial⟩, fun q _ hp => hp⟩
  | item tk tp tl tr ihl ihr =>
    have hall := Heap.all_le h (q := tp) (le_refl tp)
    obtain ⟨hl, hr, Hl, Hr⟩ := h
    by_cases h1 : p > tp
    · simp only [insert, h1, if_true]
      have hs := split_heap (item tk tp tl tr) k ⟨hl, hr, Hl, Hr⟩
      refine ⟨⟨?_, ?_, hs.1, hs.2⟩, fun q _ hp => hp⟩
      · exact rootLe_of_all (fun x hx => le_trans (hall x (mem_split_fst hx)) (le_of_lt h1))
      · exact rootLe_of_all (fun x hx => le_trans (hall x (mem_split_snd hx)) (le_of_lt h1))
    · have hp : p ≤ tp := not_lt.1 h1
      by_cases h2 : k < tk
      · simp only [insert, h1, h2, if_true, if_false]
        exact ⟨⟨(ihl Hl).2 tp hl hp, hr, (ihl Hl).1, Hr⟩, fun q hq _ => hq⟩
      · simp only [insert, h1, h2, if_false]
        exact ⟨⟨hl, (ihr Hr).2 tp hr hp, Hl, (ihr Hr).1⟩, fun q hq _ => hq⟩

theorem build_snoc (xs : List (Int × Int)) (x : Int × Int) :
    build (xs ++ [x]) = insertNew (build xs) x.1 x.2 := by
  simp [build, List.foldl_append]

/-- The keys of the tree built from a list are the keys of the list, and they come
out non-decreasing. -/
theorem build_keys (xs : List (Int × Int)) :
    (keys (build xs)).Perm (xs.map Prod.fst) ∧ (keys (build xs)).Sorted (· ≤ ·) := by
  induction xs using List.reverseRecOn with
  | nil => simp [build]
  | append_singleton xs x ih =>
    rw [build_snoc]
    refine ⟨?_, insertNew_sorted_le _ _ _ ih.2⟩
    refine (insertNew_keys_perm _ _ _).trans ?_
    rw [List.map_append, List.map_singleton]
    exact ((ih.1.cons x.1).trans (List.perm_append_singleton _ _).symm)

/-! ## merge -/

/-- The in-order sequence of `merge l r` is that of `l` followed by that of `r`. -/
theorem merge_nodes (l r : pitem) : nodes (merge l r) = nodes l ++ nodes r := by
  induction l, r using merge.induct with
  | case1 r => simp [merge]
  | case2 lk lp ll lr => simp [merge]
  | case3 lk lp ll lr rk rp rl rr h ih =>
    rw [merge, if_pos h, nodes_item, ih]
    simp
  | case4 lk lp ll lr rk rp rl rr h ih =>
    rw [merge, if_neg h, nodes_item, ih]
    simp

theorem merge_keys (l r : pitem) : keys (merge l r) = keys l ++ keys r := by
  simp [keys, merge_nodes]

/-- The merge of two heaps is a heap whose root priority is bounded by any common
bound of the two root priorities. -/
theorem merge_heap (l r : pitem) (hl : Heap l) (hr : Heap r) :
    Heap (merge l r) ∧ ∀ q, rootLe l q → rootLe r q → rootLe (merge l r) q := by
  induction l, r using merge.induct with
  | case1 r =>
    rw [merge]
    exact ⟨hr, fun q _ h => h⟩
  | case2 lk lp ll lr =>
    rw [merge]
    exact ⟨hl, fun q h _ => h⟩
  | case3 lk lp ll lr rk rp rl rr h ih =>
    rw [merge, if_pos h]
    obtain ⟨h1, h2, H1, H2⟩ := hl
    have := ih H2 hr
    exact ⟨⟨h1, this.2 lp h2 (le_of_lt h), H1, this.1⟩, fun q hq _ => hq⟩
  | case4 lk lp ll lr rk rp rl rr h ih =>
    rw [merge, if_neg h]
    obtain ⟨h1, h2, H1, H2⟩ := hr
    have := ih hl H1
    exact ⟨⟨this.2 rp (not_lt.1 h) h1, h2, this.1, H2⟩, fun q _ hq => hq⟩

/-! ## erase -/

theorem filter_ne_all {xs : List (Int × Int)} {key : Int} (h : ∀ x ∈ xs, x.1 ≠ key) :
    xs.filter (fun x => decide (x.1 ≠ key)) = xs := by
  rw [List.filter_eq_self]
  intro x hx
  simpa using h x hx

/-- When the descent of `erase` reaches `NULL` the source dereferences it; this
happens for every key that is not in the tree. -/
theorem erase_absent (t : pitem) (key : Int) (h : key ∉ keys t) : erase t key = none := by
  induction t with
  | null => rfl
  | item k p l r ihl ihr =>
    simp only [keys_item, List.mem_append, List.mem_cons, not_or] at h
    obtain ⟨hl, hk, hr⟩ := h
    have hk1 : ¬ k = key := fun e => hk e.symm
    by_cases h2 : key < k
    · simp [erase, hk1, h2, ihl hl]
    · simp [erase, hk1, h2, ihr hr]

/-- On a tree with the BST invariant `erase` of a present key finds it, and the
result holds the other items in the same order. -/
theorem erase_nodes (t : pitem) (key : Int) (hB : BST t) (hk : key ∈ keys t) :
    ∃ t', erase t key = some t' ∧
      nodes t' = (nodes t).filter (fun x => decide (x.1 ≠ key)) := by
  induction t with
  | null => simp at hk
  | item k p l r ihl ihr =>
    obtain ⟨hl, hr, Bl, Br⟩ := hB
    have hl1 : ∀ x ∈ nodes l, x.1 < k := fun x hx => hl x.1 (mem_keys_iff.2 ⟨x.2, hx⟩)
    have hr1 : ∀ x ∈ nodes r, k < x.1 := fun x hx => hr x.1 (mem_keys_iff.2 ⟨x.2, hx⟩)
    by_cases h1 : k = key
    · subst h1
      refine ⟨merge l r, by simp [erase], ?_⟩
      rw [merge_nodes, nodes_item, List.filter_append, List.filter_cons,
        filter_ne_all (fun x hx => ne_of_lt (hl1 x hx)),
        filter_ne_all (fun x hx => ne_of_gt (hr1 x hx))]
      simp
    · simp only [keys_item, List.mem_append, List.mem_cons] at hk
      by_cases h2 : key < k
      · have hkl : key ∈ keys l := by
          rcases hk with hk | hk | hk
          · exact hk
          · exact absurd hk.symm h1
          · exact absurd (hr key hk) (not_lt.2 (le_of_lt h2))
        obtain ⟨l', he, hn⟩ := ihl Bl hkl
        refine ⟨item k p l' r, by simp [erase, h1, h2, he], ?_⟩
        rw [nodes_item, nodes_item, List.filter_append, List.filter_cons, hn,
          filter_ne_all (fun x hx => ne_of_gt (lt_trans h2 (hr1 x hx)))]
        simp [h1]
      · have hkr : key ∈ keys r := by
          rcases hk with hk | hk | hk
          · exact absurd (lt_trans (hl key hk) (lt_of_le_of_ne (not_lt.1 h2) h1)) (lt_irrefl _)
          · exact absurd hk.symm h1
          · exact hk
        obtain ⟨r', he, hn⟩ := ihr Br hkr
        refine ⟨item k p l r', by simp [erase, h1, h2, he], ?_⟩
        have hlt : k < key := lt_of_le_of_ne (not_lt.1 h2) h1
        rw [nodes_item, nodes_item, List.filter_append, List.filter_cons, hn,
          filter_ne_all (fun x hx => ne_of_lt (lt_trans (hl1 x hx) hlt))]
        simp [h1]

/-- A successful `erase` on a heap gives a heap, with the root priority still
bounded by any bound of the old root priority. -/
theorem erase_heap (t t' : pitem) (key : Int) (hH : Heap t) (he : erase t key = some t') :
    Heap t' ∧ ∀ q, rootLe t q → rootLe t' q := by
  induction t generalizing t' with
  | null => simp [erase] at he
  | item k p l r ihl ihr =>
    obtain ⟨hl, hr, Hl, Hr⟩ := hH
    by_cases h1 : k = key
    · simp only [erase, h1, if_true, Option.some.injEq] at he
      subst he
      have hm := merge_heap l r Hl Hr
      exact ⟨hm.1, fun q hq => hm.2 q (rootLe_mono hl hq) (rootLe_mono hr hq)⟩
    · by_cases h2 : key < k
      · simp only [erase, h1, h2, if_true, if_false, Option.map_eq_some'] at he
        obtain ⟨l', hel, rfl⟩ := he
        have := ihl l' Hl hel
        exact ⟨⟨this.2 p hl, hr, this.1, Hr⟩, fun q hq => hq⟩
      · simp only [erase, h1, h2, if_false, Option.map_eq_some'] at he
        obtain ⟨r', her, rfl⟩ := he
        have := ihr r' Hr her
        exact ⟨⟨hl, this.2 p hr, Hl, this.1⟩, fun q hq => hq⟩

/-! ## unite -/

theorem sorted_le_item_mk {k p : Int} {l r : pitem}
    (sl : (keys l).Sorted (· ≤ ·)) (sr : (keys r).Sorted (· ≤ ·))
    (hl : ∀ x ∈ nodes l, x.1 ≤ k) (hr : ∀ x ∈ nodes r, k ≤ x.1) :
    (keys (item k p l r)).Sorted (· ≤ ·) := by
  simp only [keys_item, List.Sorted, List.pairwise_append, List.pairwise_cons,
    List.mem_cons]
  have hl1 : ∀ a ∈ keys l, a ≤ k := by
    intro a ha
    obtain ⟨q, hq⟩ := mem_keys_iff.1 ha
    exact hl _ hq
  have hr1 : ∀ b ∈ keys r, k ≤ b := by
    intro b hb
    obtain ⟨q, hq⟩ := mem_keys_iff.1 hb
    exact hr _ hq
  refine ⟨sl, ⟨hr1, sr⟩, ?_⟩
  rintro a ha b (rfl | hb)
  · exact hl1 a ha
  · exact le_trans (hl1 a ha) (hr1 b hb)

/-- Both results of `split` keep non-decreasing in-order keys, the first one bounded
above by the pivot, the second one strictly below by it. -/
theorem split_sorted_le (t : pitem) (key : Int) (h : (keys t).Sorted (· ≤ ·)) :
    (keys (split t key).1).Sorted (· ≤ ·) ∧ (keys (split t key).2).Sorted (· ≤ ·) ∧
    (∀ x ∈ nodes (split t key).1, x.1 ≤ key) ∧
    (∀ x ∈ nodes (split t key).2, key < x.1) := by
  have hk := split_keys t key h
  have hn := split_nodes t key h
  refine ⟨?_, ?_, ?_, ?_⟩
  · rw [hk.1]; exact h.sublist (List.filter_sublist _)
  · rw [hk.2]; exact h.sublist (List.filter_sublist _)
  · intro x hx
    rw [hn.1] at hx
    simpa using (List.mem_filter.1 hx).2
  · intro x hx
    rw [hn.2] at hx
    simpa using (List.mem_filter.1 hx).2

theorem perm_regroup (a s1 s2 c : List (Int × Int)) (x : Int × Int) :
    ((a ++ s1) ++ x :: (c ++ s2)).Perm ((a ++ x :: c) ++ (s1 ++ s2)) := by
  rw [List.perm_iff_count]
  intro y
  simp only [List.count_append, List.count_cons]
  omega

/-- The result of `unite` holds every item of both trees, a key of both included
twice. -/
theorem unite_perm (a b : pitem) : (nodes (unite a b)).Perm (nodes a ++ nodes b) := by
  induction a, b using unite.induct with
  | case1 r => simp [unite]
  | case2 lk lp ll lr => simp [unite]
  | case3 lk lp ll lr rk rp rl rr h ih1 ih2 =>
    rw [unite, if_pos h, nodes_item]
    have hs := split_perm (item lk lp ll lr) rk
    refine ((ih1.append (ih2.cons (rk, rp)))).trans ?_
    refine (perm_regroup _ _ _ _ _).trans ?_
    exact (hs.append_left _).trans List.perm_append_comm
  | case4 lk lp ll lr rk rp rl rr h ih1 ih2 =>
    rw [unite, if_neg h, nodes_item]
    have hs := split_perm (item rk rp rl rr) lk
    refine ((ih1.append (ih2.cons (lk, lp)))).trans ?_
    refine (perm_regroup _ _ _ _ _).trans ?_
    exact hs.append_left _

theorem unite_keys_perm (a b : pitem) : (keys (unite a b)).Perm (keys a ++ keys b) := by
  have h := (unite_perm a b).map Prod.fst
  simpa [keys] using h

/-- The result of `unite` on two trees with non-decreasing in-order keys has
non-decreasing in-order keys. -/
theorem unite_sorted_le (a b : pitem) (ha : (keys a).Sorted (· ≤ ·))
    (hb : (keys b).Sorted (· ≤ ·)) : (keys (unite a b)).Sorted (· ≤ ·) := by
  induction a, b using unite.induct with
  | case1 r => rw [unite]; exact hb
  | case2 lk lp ll lr => rw [unite]; exact ha
  | case3 lk lp ll lr rk rp rl rr h ih1 ih2 =>
    rw [unite, if_pos h]
    obtain ⟨s1, s2, b1, b2⟩ := split_sorted_le (item lk lp ll lr) rk ha
    obtain ⟨sl, sr, hl, hr⟩ := sorted_le_item hb
    refine sorted_le_item_mk (ih1 sl s1) (ih2 sr s2) ?_ ?_
    · intro x hx
      rcases List.mem_append.1 ((unite_perm _ _).subset hx) with hx | hx
      · exact hl x hx
      · exact b1 x hx
    · intro x hx
      rcases List.mem_append.1 ((unite_perm _ _).subset hx) with hx | hx
      · exact hr x hx
      · exact le_of_lt (b2 x hx)
  | case4 lk lp ll lr rk rp rl rr h ih1 ih2 =>
    rw [unite, if_neg h]
    obtain ⟨s1, s2, b1, b2⟩ := split_sorted_le (item rk rp rl rr) lk hb
    obtain ⟨sl, sr, hl, hr⟩ := sorted_le_item ha
    refine sorted_le_item_mk (ih1 sl s1) (ih2 sr s2) ?_ ?_
    · intro x hx
      rcases List.mem_append.1 ((unite_perm _ _).subset hx) with hx | hx
      · exact hl x hx
      · exact b1 x hx
    · intro x hx
      rcases List.mem_append.1 ((unite_perm _ _).subset hx) with hx | hx
      · exact hr x hx
      · exact le_of_lt (b2 x hx)

/-- The in-order keys of `unite a b` are the keys of `a` and `b` together, sorted. -/
theorem unite_keys (a b : pitem) (ha : (keys a).Sorted (· ≤ ·))
    (hb : (keys b).Sorted (· ≤ ·)) :
    keys (unite a b) = (keys a ++ keys b).insertionSort (· ≤ ·) :=
  List.eq_of_perm_of_sorted
    ((unite_keys_perm a b).trans (List.perm_insertionSort (· ≤ ·) _).symm)
    (unite_sorted_le a b ha hb) (List.sorted_insertionSort (· ≤ ·) _)

/-- The result of `unite` on two heaps is a heap whose root priority is bounded by
any common bound of the two root priorities. -/
theorem heap_unite_root (a b : pitem) (ha : Heap a) (hb : Heap b) :
    Heap (unite a b) ∧ ∀ q, rootLe a q → rootLe b q → rootLe (unite a b) q := by
  induction a, b using unite.induct with
  | case1 r => rw [unite]; exact ⟨hb, fun q _ h => h⟩
  | case2 lk lp ll lr => rw [unite]; exact ⟨ha, fun q h _ => h⟩
  | case3 lk lp ll lr rk rp rl rr h ih1 ih2 =>
    rw [unite, if_pos h]
    have hall := Heap.all_le ha (q := rp) (le_of_lt h)
    have hs := split_heap (item lk lp ll lr) rk ha
    obtain ⟨h1, h2, H1, H2⟩ := hb
    have i1 := ih1 H1 hs.1
    have i2 := ih2 H2 hs.2
    refine ⟨⟨?_, ?_, i1.1, i2.1⟩, fun q _ hq => hq⟩
    · exact i1.2 rp h1 (rootLe_of_all (fun x hx => hall x (mem_split_fst hx)))
    · exact i2.2 rp h2 (rootLe_of_all (fun x hx => hall x (mem_split_snd hx)))
  | case4 lk lp ll lr rk rp rl rr h ih1 ih2 =>
    rw [unite, if_neg h]
    have hall := Heap.all_le hb (q := lp) (not_lt.1 h)
    have hs := split_heap (item rk rp rl rr) lk hb
    obtain ⟨h1, h2, H1, H2⟩ := ha
    have i1 := ih1 H1 hs.1
    have i2 := ih2 H2 hs.2
    refine ⟨⟨?_, ?_, i1.1, i2.1⟩, fun q hq _ => hq⟩
    · exact i1.2 lp h1 (rootLe_of_all (fun x hx => hall x (mem_split_fst hx)))
    · exact i2.2 lp h2 (rootLe_of_all (fun x hx => hall x (mem_split_snd hx)))

/-! ## The strict heap invariant: merge after split, erase after insert -/

theorem rootLt_mono {t : pitem} {p q : Int} (h : rootLt t p) (hpq : p ≤ q) : rootLt t q := by
  cases t with
  | null => trivial
  | item k a l r => exact lt_of_lt_of_le h hpq

/-- In a strict heap every priority is strictly below a strict bound of the root
priority. -/
theorem StrictHeap.all_lt {t : pitem} {q : Int} (h : StrictHeap t) (hq : rootLt t q) :
    ∀ x ∈ nodes t, x.2 < q := by
  induction t generalizing q with
  | null => simp
  | item k p l r ihl ihr =>
    obtain ⟨hl, hr, Hl, Hr⟩ := h
    have hpq : p < q := hq
    intro x hx
    simp only [nodes_item, List.mem_append, List.mem_cons] at hx
    rcases hx with hx | rfl | hx
    · exact ihl Hl (rootLt_mono hl (le_of_lt hpq)) x hx
    · exact hpq
    · exact ihr Hr (rootLt_mono hr (le_of_lt hpq)) x hx

theorem merge_null_right (l : pitem) : merge l null = l := by
  cases l <;> simp [merge]

theorem merge_null_left (r : pitem) : merge null r = r := by
  simp [merge]

/-- A right root whose priority is at least every priority of `L` becomes the root. -/
theorem merge_item_right (L : pitem) (k p : Int) (rl rr : pitem)
    (h : ∀ x ∈ nodes L, x.2 ≤ p) : merge L (item k p rl rr) = item k p (merge L rl) rr := by
  cases L with
  | null => simp [merge]
  | item a b c d =>
    have hb : ¬ b > p := not_lt.2 (h (a, b) (by simp))
    rw [merge, if_neg hb]

/-- A left root whose priority is strictly above every priority of `R` becomes the
root. -/
theorem merge_item_left (k p : Int) (ll lr : pitem) (R : pitem)
    (h : ∀ x ∈ nodes R, x.2 < p) : merge (item k p ll lr) R = item k p ll (merge lr R) := by
  cases R with
  | null => rw [merge_null_right, merge_null_right]
  | item a b c d =>
    have hb : p > b := h (a, b) (by simp)
    rw [merge, if_pos hb]

/-- On a strict heap `merge` puts the two results of `split` back together. -/
theorem merge_split (t : pitem) (key : Int) (h : StrictHeap t) :
    merge (split t key).1 (split t key).2 = t := by
  induction t with
  | null => simp [split, merge]
  | item k p l r ihl ihr =>
    obtain ⟨hl, hr, Hl, Hr⟩ := h
    by_cases hk : key < k
    · simp only [split, hk, if_true]
      rw [merge_item_right _ _ _ _ _
        (fun x hx => le_of_lt (StrictHeap.all_lt Hl hl x (mem_split_fst hx))), ihl Hl]
    · simp only [split, hk, if_false]
      rw [merge_item_left _ _ _ _ _
        (fun x hx => StrictHeap.all_lt Hr hr x (mem_split_snd hx)), ihr Hr]

/-- On a strict heap `erase` of a key that was absent removes the node that `insert`
has just added and restores the tree. -/
theorem erase_insertNew (t : pitem) (k p : Int) (h : StrictHeap t) (hk : k ∉ keys t) :
    erase (insertNew t k p) k = some t := by
  unfold insertNew
  induction t with
  | null => simp [insert, erase, merge]
  | item tk tp tl tr ihl ihr =>
    simp only [keys_item, List.mem_append, List.mem_cons, not_or] at hk
    obtain ⟨hkl, hne, hkr⟩ := hk
    have hne1 : ¬ tk = k := fun e => hne e.symm
    by_cases h1 : p > tp
    · simp only [insert, h1, if_true, erase]
      rw [merge_split _ _ h]
    · obtain ⟨_, _, Hl, Hr⟩ := h
      by_cases h2 : k < tk
      · simp only [insert, h1, h2, if_true, if_false, erase, hne1, ihl Hl hkl, Option.map_some']
      · simp only [insert, h1, h2, if_false, erase, hne1, ihr Hr hkr, Option.map_some']

/-! ## Uniqueness of the shape -/

/-- Two trees with both invariants, the same in-order node sequence and pairwise
distinct priorities are the same tree. -/
theorem treap_unique (t1 t2 : pitem) (hB1 : BST t1) (hH1 : Heap t1) (hB2 : BST t2)
    (hH2 : Heap t2) (hn : nodes t1 = nodes t2)
    (hd : ((nodes t1).map Prod.snd).Nodup) : t1 = t2 := by
  induction t1 generalizing t2 with
  | null =>
    cases t2 with
    | null => rfl
    | item k p l r => simp at hn
  | item k p l r ihl ihr =>
    cases t2 with
    | null => simp at hn
    | item k' p' l' r' =>
      have all1 := Heap.all_le hH1 (q := p) (le_refl p)
      have all2 := Heap.all_le hH2 (q := p') (le_refl p')
      have m1 : (k, p) ∈ nodes (item k p l r) := by simp
      have m2 : (k', p') ∈ nodes (item k p l r) := by rw [hn]; simp
      have m1' : (k, p) ∈ nodes (item k' p' l' r') := by rw [← hn]; exact m1
      have hp : p = p' := le_antisymm (all2 _ m1') (all1 _ m2)
      have hkp : (k, p) = (k', p') := List.inj_on_of_nodup_map hd m1 m2 hp
      obtain ⟨rfl, rfl⟩ := Prod.mk.inj hkp
      obtain ⟨hl1, hr1, Bl1, Br1⟩ := hB1
      obtain ⟨hl2, hr2, Bl2, Br2⟩ := hB2
      obtain ⟨_, _, Hl1, Hr1⟩ := hH1
      obtain ⟨_, _, Hl2, Hr2⟩ := hH2
      have nl : ∀ {t : pitem}, (∀ x ∈ keys t, x < k) → ∀ x ∈ nodes t, x.1 ≤ k :=
        fun ht x hx => le_of_lt (ht x.1 (mem_keys_iff.2 ⟨x.2, hx⟩))
      have nr : ∀ {t : pitem}, (∀ x ∈ keys t, k < x) → ∀ x ∈ nodes t, k < x.1 :=
        fun ht x hx => ht x.1 (mem_keys_iff.2 ⟨x.2, hx⟩)
      have hf := congrArg (List.filter (fun x => decide (k < x.1))) hn
      simp only [nodes_item, List.filter_append, List.filter_cons, lt_irrefl, decide_False,
        filter_gt_none (nl hl1), filter_gt_none (nl hl2), filter_gt_all (nr hr1),
        filter_gt_all (nr hr2), List.nil_append] at hf
      simp only [nodes_item, List.map_append, List.map_cons, List.nodup_append,
        List.nodup_cons] at hd
      have hnr : nodes r = nodes r' := by simpa using hf
      have hnl : nodes l = nodes l' := by
        simp only [nodes_item] at hn
        rw [hnr] at hn
        exact List.append_cancel_right hn
      rw [ihl l' Bl1 Hl1 Bl2 Hl2 hnl hd.1, ihr r' Br1 Hr1 Br2 Hr2 hnr hd.2.1.2]

theorem build_heap (xs : List (Int × Int)) : Heap (build xs) := by
  induction xs using List.reverseRecOn with
  | nil => trivial
  | append_singleton xs x ih =>
    rw [build_snoc]
    exact (insertNew_heap _ _ _ ih).1

theorem build_nodes_perm (xs : List (Int × Int)) : (nodes (build xs)).Perm xs := by
  induction xs using List.reverseRecOn with
  | nil => simp [build]
  | append_singleton xs x ih =>
    rw [build_snoc]
    exact (insertNew_perm _ _ _).trans
      ((ih.cons _).trans (List.perm_append_singleton _ _).symm)

theorem build_BST (xs : List (Int × Int)) (h : (xs.map Prod.fst).Nodup) : BST (build xs) := by
  rw [BST_iff_sorted]
  have hk := build_keys xs
  exact List.Sorted.lt_of_le hk.2 (hk.1.nodup_iff.2 h)

/-- The in-order node sequence of a tree with the BST invariant is determined by the
set of its nodes. -/
theorem nodes_eq_of_perm (t1 t2 : pitem) (hB1 : BST t1) (hB2 : BST t2)
    (hp : (nodes t1).Perm (nodes t2)) : nodes t1 = nodes t2 := by
  haveI : IsAntisymm (Int × Int) (fun a b => a.1 < b.1) :=
    ⟨fun a b h1 h2 => absurd h1 (lt_asymm h2)⟩
  have s1 : (nodes t1).Sorted (fun a b => a.1 < b.1) :=
    List.pairwise_map.1 ((BST_iff_sorted t1).1 hB1)
  have s2 : (nodes t2).Sorted (fun a b => a.1 < b.1) :=
    List.pairwise_map.1 ((BST_iff_sorted t2).1 hB2)
  exact List.eq_of_perm_of_sorted hp s1 s2

/-! ## unite with a bounded depth of recursion -/

/-- With more levels than the two trees have items together, the bounded run of
`unite` returns, and it returns the result of `unite`. -/
theorem uniteDepth_eq (n : Nat) (l r : pitem) (h : size l + size r < n) :
    uniteDepth n l r = some (unite l r) := by
  induction n generalizing l r with
  | zero => omega
  | succ n ih =>
    cases l with
    | null => simp [uniteDepth, unite]
    | item lk lp ll lr =>
      cases r with
      | null => simp [uniteDepth, unite]
      | item rk rp rl rr =>
        by_cases hp : lp < rp
        · have hs := size_split (item lk lp ll lr) rk
          simp only [size] at h hs
          have h1 := ih rl (split (item lk lp ll lr) rk).1 (by omega)
          have h2 := ih rr (split (item lk lp ll lr) rk).2 (by omega)
          rw [uniteDepth, unite, if_pos hp, if_pos hp, h1, h2]
        · have hs := size_split (item rk rp rl rr) lk
          simp only [size] at h hs
          have h1 := ih ll (split (item rk rp rl rr) lk).1 (by omega)
          have h2 := ih lr (split (item rk rp rl rr) lk).2 (by omega)
          rw [uniteDepth, unite, if_neg hp, if_neg hp, h1, h2]

/-! ## Claims -/

/-- C1 (as stated, refuted): on the tree with keys 1, 2, 3, which satisfies the BST
invariant, `split` at pivot 2 puts key 2 into the left result: the left result is
[1, 2], not [1], its keys are not all strictly below the pivot, and the right result
is [3], not [2, 3]. -/
theorem split_pivot_goes_left :
    BST tree123 ∧ keys tree123 = [1, 2, 3] ∧
    keys (split tree123 2).1 = [1, 2] ∧ keys (split tree123 2).2 = [3] ∧
    ¬ (∀ x ∈ keys (split tree123 2).1, x < 2) ∧
    keys (split tree123 2).1 ≠ [1] ∧ keys (split tree123 2).2 ≠ [2, 3] := by
  decide

/-- C1 (amended): for a tree `T` with the BST invariant and a pivot `p`,
`split T p = (L, R)` puts in `L` exactly the items with key at most `p` and in `R`
exactly the items with key strictly above `p` (every key in `L` is `≤ p`, every key
in `R` is `> p`); in particular a tree with keys 1, 2, 3 split at 2 gives
`L = [1, 2]` and `R = [3]`. -/
theorem split_correct (T : pitem) (p : Int) (h : BST T) :
    nodes (split T p).1 = (nodes T).filter (fun x => decide (x.1 ≤ p)) ∧
    nodes (split T p).2 = (nodes T).filter (fun x => decide (p < x.1)) ∧
    (∀ x ∈ keys (split T p).1, x ≤ p) ∧ (∀ y ∈ keys (split T p).2, p < y) ∧
    (keys T = [1, 2, 3] → p = 2 →
      keys (split T p).1 = [1, 2] ∧ keys (split T p).2 = [3]) := by
  have hs := sorted_le_of_BST h
  have hk := split_keys T p hs
  refine ⟨(split_nodes T p hs).1, (split_nodes T p hs).2, ?_, ?_, ?_⟩
  · intro x hx
    rw [hk.1] at hx
    simpa using (List.mem_filter.1 hx).2
  · intro y hy
    rw [hk.2] at hy
    simpa using (List.mem_filter.1 hy).2
  · intro h123 hp
    rw [hk.1, hk.2, h123, hp]
    exact ⟨by decide, by decide⟩

/-- C1 (amended), at the tree of keys 1, 2, 3 and pivot 2. -/
theorem split_correct_witness :
    keys (split tree123 2).1 = [1, 2] ∧ keys (split tree123 2).2 = [3] :=
  (split_correct tree123 2 (by decide)).2.2.2.2 (by decide) rfl

/-- C2: for every list of nodes with pairwise distinct keys and arbitrary
priorities, inserting them one after another into the empty tree gives a tree whose
in-order key sequence is the sorted sequence of those keys, and which satisfies the
BST invariant; the tree of 1 (100), 2 (200), 3 (700) has in-order keys [1, 2, 3]. -/
theorem build_inorder_sorted (xs : List (Int × Int)) (h : (xs.map Prod.fst).Nodup) :
    keys (build xs) = (xs.map Prod.fst).insertionSort (· ≤ ·) ∧ BST (build xs) ∧
    keys (build [(1, 100), (2, 200), (3, 700)]) = [1, 2, 3] := by
  have hk := build_keys xs
  refine ⟨?_, ?_, by decide⟩
  · exact List.eq_of_perm_of_sorted
      (hk.1.trans (List.perm_insertionSort (· ≤ ·) _).symm) hk.2
      (List.sorted_insertionSort (· ≤ ·) _)
  · rw [BST_iff_sorted]
    have hnd : (keys (build xs)).Nodup := hk.1.nodup_iff.2 h
    exact List.Sorted.lt_of_le hk.2 hnd

/-- C2 at the nodes 1 (100), 2 (200), 3 (700): the in-order keys are [1, 2, 3]. -/
theorem build_inorder_sorted_witness :
    keys (build [(1, 100), (2, 200), (3, 700)]) = [1, 2, 3] ∧
    keys (build [(3, 700), (1, 100), (2, 200)]) = [1, 2, 3] :=
  ⟨(build_inorder_sorted [(1, 100), (2, 200), (3, 700)] (by decide)).2.2,
   (build_inorder_sorted [(3, 700), (1, 100), (2, 200)] (by decide)).1.trans (by decide)⟩

/-- C3: for a tree `T` with the BST and the heap invariant, a key `k` that is not in
`T` and a priority `p`, `insert` of the new node `(k, p)` adds exactly that one node:
the result satisfies both invariants, its nodes are the nodes of `T` and `(k, p)`,
and its keys are the keys of `T` and `k`. -/
theorem insert_new_key (T : pitem) (k p : Int) (hB : BST T) (hH : Heap T)
    (hk : k ∉ keys T) :
    BST (insertNew T k p) ∧ Heap (insertNew T k p) ∧
    (nodes (insertNew T k p)).Perm ((k, p) :: nodes T) ∧
    size (insertNew T k p) = size T + 1 ∧
    (∀ x, x ∈ keys (insertNew T k p) ↔ x = k ∨ x ∈ keys T) := by
  refine ⟨insertNew_BST T k p hB hk, (insertNew_heap T k p hH).1, insertNew_perm T k p, ?_, ?_⟩
  · have := (insertNew_perm T k p).length_eq
    simpa [size_eq_length] using this
  · intro x
    rw [(insertNew_keys_perm T k p).mem_iff, List.mem_cons]

/-- C3 at the tree of 1 (100), 3 (700) and the new node 2 (200). -/
theorem insert_new_key_witness :
    BST (insertNew (build [(1, 100), (3, 700)]) 2 200) ∧
    Heap (insertNew (build [(1, 100), (3, 700)]) 2 200) ∧
    size (insertNew (build [(1, 100), (3, 700)]) 2 200) = 3 :=
  have h := insert_new_key (build [(1, 100), (3, 700)]) 2 200
    (by decide) (by decide) (by decide)
  ⟨h.1, h.2.1, h.2.2.2.1⟩

/-- C4 (as stated, refuted): `main` inserts key 1 with priority 100 and then key 1
again with priority 300.  The tree of the first insert satisfies both invariants and
holds key 1; after the second insert the tree has two nodes with key 1, one node
more than before, and does not satisfy the strict BST invariant. -/
theorem insert_duplicate_kept :
    BST (build [(1, 100)]) ∧ Heap (build [(1, 100)]) ∧ 1 ∈ keys (build [(1, 100)]) ∧
    insertNew (build [(1, 100)]) 1 300 = item 1 300 (item 1 100 null null) null ∧
    keys (insertNew (build [(1, 100)]) 1 300) = [1, 1] ∧
    size (insertNew (build [(1, 100)]) 1 300) = size (build [(1, 100)]) + 1 ∧
    ¬ BST (insertNew (build [(1, 100)]) 1 300) := by
  decide

/-- C4 (amended): for a tree `T` with both invariants, a key `k` already in `T` and
a priority `p`, `insert` keeps the old node and adds the new one as a duplicate: the
nodes of the result are the nodes of `T` and `(k, p)`, one more than before, exactly
two of them have key `k`, so the strict BST invariant does not hold; the in-order
keys are still non-decreasing and the heap invariant still holds. -/
theorem insert_present_key (T : pitem) (k p : Int) (hB : BST T) (hH : Heap T)
    (hk : k ∈ keys T) :
    (nodes (insertNew T k p)).Perm ((k, p) :: nodes T) ∧
    size (insertNew T k p) = size T + 1 ∧
    (keys (insertNew T k p)).count k = 2 ∧
    ¬ BST (insertNew T k p) ∧
    (keys (insertNew T k p)).Sorted (· ≤ ·) ∧ Heap (insertNew T k p) := by
  have hnd : (keys T).Nodup := ((BST_iff_sorted T).1 hB).nodup
  have hc : (keys (insertNew T k p)).count k = 2 := by
    rw [(insertNew_keys_perm T k p).count_eq, List.count_cons_self,
      List.count_eq_one_of_mem hnd hk]
  refine ⟨insertNew_perm T k p, ?_, hc, ?_, insertNew_sorted_le T k p (sorted_le_of_BST hB),
    (insertNew_heap T k p hH).1⟩
  · have := (insertNew_perm T k p).length_eq
    simpa [size_eq_length] using this
  · intro hb
    have h1 := List.nodup_iff_count_le_one.1 ((BST_iff_sorted _).1 hb).nodup k
    omega

/-- C4 (amended) at the second insert of `main`: key 1 (priority 300) into the tree
holding 1 (priority 100). -/
theorem insert_present_key_witness :
    (keys (insertNew (build [(1, 100)]) 1 300)).count 1 = 2 ∧
    size (insertNew (build [(1, 100)]) 1 300) = size (build [(1, 100)]) + 1 :=
  have h := insert_present_key (build [(1, 100)]) 1 300 (by decide) (by decide) (by decide)
  ⟨h.2.2.1, h.2.1⟩

/-- C5: for a tree `T` with the BST and the heap invariant and a key `k` in `T`,
`erase` succeeds (it never reaches an empty subtree) and gives a tree with both
invariants whose nodes are those of `T` except the node of key `k`; erasing 2 from the
tree of 1 (100), 2 (200), 3 (700) gives in-order keys [1, 3] under the root 3. -/
theorem erase_present_key (T : pitem) (k : Int) (hB : BST T) (hH : Heap T)
    (hk : k ∈ keys T) :
    (∃ T', erase T k = some T' ∧ BST T' ∧ Heap T' ∧
      nodes T' = (nodes T).filter (fun x => decide (x.1 ≠ k)) ∧
      (∀ x, x ∈ keys T' ↔ x ∈ keys T ∧ x ≠ k)) ∧
    erase tree123 2 = some (item 3 700 (item 1 100 null null) null) := by
  refine ⟨?_, by simp [tree123, build, insertNew, insert, split, erase, merge]⟩
  obtain ⟨T', he, hn⟩ := erase_nodes T k hB hk
  have hks : keys T' = (keys T).filter (fun x => decide (x ≠ k)) := by
    unfold keys
    rw [hn, List.filter_map]
    rfl
  refine ⟨T', he, ?_, (erase_heap T T' k hH he).1, hn, ?_⟩
  · rw [BST_iff_sorted, hks]
    exact ((BST_iff_sorted T).1 hB).sublist (List.filter_sublist _)
  · intro x
    rw [hks, List.mem_filter]
    simp

/-- C5 at the tree of 1 (100), 2 (200), 3 (700) and the key 2. -/
theorem erase_present_key_witness :
    ∃ T', erase tree123 2 = some T' ∧ BST T' ∧ Heap T' ∧ keys T' = [1, 3] := by
  obtain ⟨T', he, hb, hh, hn, _⟩ :=
    (erase_present_key tree123 2 (by decide) (by decide) (by decide)).1
  refine ⟨T', he, hb, hh, ?_⟩
  unfold keys
  rw [hn]
  decide

/-- C6 (the code at the failing inputs): `erase` on the empty tree, and on a tree
that does not hold the key, ends in the dereference of `NULL` (the result `none`),
not in a reported failure. -/
theorem erase_absent_key_null_deref :
    erase null 5 = none ∧ erase (item 1 100 null null) 2 = none ∧
    4 ∉ keys tree123 ∧ erase tree123 4 = none := by
  decide

/-- C7: for trees `L`, `R` that each satisfy the BST and the heap invariant, every
key of `L` strictly below every key of `R`, `merge L R` satisfies the BST invariant
and the heap invariant. -/
theorem merge_preserves (L R : pitem) (hBL : BST L) (hHL : Heap L) (hBR : BST R)
    (hHR : Heap R) (hlt : ∀ x ∈ keys L, ∀ y ∈ keys R, x < y) :
    BST (merge L R) ∧ Heap (merge L R) := by
  refine ⟨?_, (merge_heap L R hHL hHR).1⟩
  rw [BST_iff_sorted, merge_keys]
  exact List.pairwise_append.2 ⟨(BST_iff_sorted L).1 hBL, (BST_iff_sorted R).1 hBR, hlt⟩

/-- C7 at `L` = the tree of 1 (100), 2 (200) and `R` = the tree of 3 (150), 5 (50). -/
theorem merge_preserves_witness :
    BST (merge (build [(1, 100), (2, 200)]) (build [(3, 150), (5, 50)])) ∧
    Heap (merge (build [(1, 100), (2, 200)]) (build [(3, 150), (5, 50)])) :=
  merge_preserves (build [(1, 100), (2, 200)]) (build [(3, 150), (5, 50)])
    (by decide) (by decide) (by decide) (by decide) (by decide)

/-- C8 (as stated, refuted): with `L` the tree of key 1, `R` the tree of key 2 and
the pivot 2 = min(R), which lies in the stated range max(L) < p ≤ min(R),
`split (merge L R) 2` returns the keys [1, 2] and [], not the keys of `L` and of
`R`. -/
theorem split_merge_at_min_right :
    BST (item 1 100 null null) ∧ Heap (item 1 100 null null) ∧
    BST (item 2 200 null null) ∧ Heap (item 2 200 null null) ∧
    (∀ x ∈ keys (item 1 100 null null), x < 2) ∧
    (∀ y ∈ keys (item 2 200 null null), 2 ≤ y) ∧
    keys (split (merge (item 1 100 null null) (item 2 200 null null)) 2).1 = [1, 2] ∧
    keys (split (merge (item 1 100 null null) (item 2 200 null null)) 2).2 = [] ∧
    keys (split (merge (item 1 100 null null) (item 2 200 null null)) 2).1 ≠
      keys (item 1 100 null null) ∧
    keys (split (merge (item 1 100 null null) (item 2 200 null null)) 2).2 ≠
      keys (item 2 200 null null) := by
  have hm : merge (item 1 100 null null) (item 2 200 null null) =
      item 2 200 (item 1 100 null null) null := by
    simp [merge]
  rw [hm]
  decide

/-- C8 (amended): for trees `L`, `R` with the BST invariant and a pivot `p` with
max(L) ≤ p < min(R) (`p` = max(L) included, `p` = min(R) excluded),
`split (merge L R) p` returns a first tree with exactly the nodes, hence the keys, of
`L` and a second tree with exactly those of `R`.  Neither non-emptiness nor the heap
invariant is needed. -/
theorem split_merge_inverse (L R : pitem) (p : Int) (hBL : BST L) (hBR : BST R)
    (hL : ∀ x ∈ keys L, x ≤ p) (hR : ∀ y ∈ keys R, p < y) :
    nodes (split (merge L R) p).1 = nodes L ∧ nodes (split (merge L R) p).2 = nodes R ∧
    keys (split (merge L R) p).1 = keys L ∧ keys (split (merge L R) p).2 = keys R := by
  have hs : (keys (merge L R)).Sorted (· ≤ ·) := by
    rw [merge_keys]
    exact List.pairwise_append.2 ⟨sorted_le_of_BST hBL, sorted_le_of_BST hBR,
      fun x hx y hy => le_trans (hL x hx) (le_of_lt (hR y hy))⟩
  have hL1 : ∀ x ∈ nodes L, x.1 ≤ p := fun x hx => hL x.1 (mem_keys_iff.2 ⟨x.2, hx⟩)
  have hR1 : ∀ x ∈ nodes R, p < x.1 := fun x hx => hR x.1 (mem_keys_iff.2 ⟨x.2, hx⟩)
  have h1 : nodes (split (merge L R) p).1 = nodes L := by
    rw [(split_nodes _ p hs).1, merge_nodes, List.filter_append, filter_le_all hL1,
      filter_le_none hR1, List.append_nil]
  have h2 : nodes (split (merge L R) p).2 = nodes R := by
    rw [(split_nodes _ p hs).2, merge_nodes, List.filter_append,
      filter_gt_none hL1, filter_gt_all hR1, List.nil_append]
  refine ⟨h1, h2, ?_, ?_⟩
  · unfold keys; rw [h1]
  · unfold keys; rw [h2]

/-- C8 (amended) at `L` = the tree of 1 (100), 2 (200), `R` = the tree of 4 (150),
5 (50) and the pivot 2 = max(L). -/
theorem split_merge_inverse_witness :
    keys (split (merge (build [(1, 100), (2, 200)]) (build [(4, 150), (5, 50)])) 2).1
      = [1, 2] ∧
    keys (split (merge (build [(1, 100), (2, 200)]) (build [(4, 150), (5, 50)])) 2).2
      = [4, 5] :=
  have h := split_merge_inverse (build [(1, 100), (2, 200)]) (build [(4, 150), (5, 50)]) 2
    (by decide) (by decide) (by decide) (by decide)
  ⟨h.2.2.1.trans (by decide), h.2.2.2.trans (by decide)⟩

/-- C9 (as stated, refuted): `A` = the tree of key 1 (priority 100) and `B` = the tree
of key 1 (priority 50) satisfy both invariants; `unite A B` holds key 1 twice, so its
in-order keys [1, 1] are not strictly ascending and the strict BST invariant does
not hold. -/
theorem unite_duplicate_kept :
    BST (item 1 100 null null) ∧ Heap (item 1 100 null null) ∧
    BST (item 1 50 null null) ∧ Heap (item 1 50 null null) ∧
    unite (item 1 100 null null) (item 1 50 null null) =
      item 1 100 (item 1 50 null null) null ∧
    keys (unite (item 1 100 null null) (item 1 50 null null)) = [1, 1] ∧
    ¬ (keys (unite (item 1 100 null null) (item 1 50 null null))).Sorted (· < ·) ∧
    ¬ BST (unite (item 1 100 null null) (item 1 50 null null)) := by
  have hu : unite (item 1 100 null null) (item 1 50 null null) =
      item 1 100 (item 1 50 null null) null := by
    simp [unite, split]
  rw [hu]
  decide

/-- C9 (amended): for trees `A`, `B` with the BST invariant and arbitrary, possibly
overlapping key sets, `unite A B` keeps duplicate keys: its in-order keys are the
non-decreasing sorted list of the keys of `A` followed by the keys of `B`, so its
key set is the union and a key of both `A` and `B` occurs twice; when the two key
sets are disjoint the result satisfies the strict BST invariant. -/
theorem unite_keeps_duplicates (A B : pitem) (hA : BST A) (hB : BST B) :
    keys (unite A B) = (keys A ++ keys B).insertionSort (· ≤ ·) ∧
    (∀ x, x ∈ keys (unite A B) ↔ x ∈ keys A ∨ x ∈ keys B) ∧
    (∀ x, x ∈ keys A → x ∈ keys B → (keys (unite A B)).count x = 2) ∧
    ((∀ x ∈ keys A, x ∉ keys B) → BST (unite A B)) := by
  have sA := sorted_le_of_BST hA
  have sB := sorted_le_of_BST hB
  have nA : (keys A).Nodup := ((BST_iff_sorted A).1 hA).nodup
  have nB : (keys B).Nodup := ((BST_iff_sorted B).1 hB).nodup
  have hp := unite_keys_perm A B
  refine ⟨unite_keys A B sA sB, ?_, ?_, ?_⟩
  · intro x
    rw [hp.mem_iff, List.mem_append]
  · intro x hxA hxB
    rw [hp.count_eq, List.count_append, List.count_eq_one_of_mem nA hxA,
      List.count_eq_one_of_mem nB hxB]
  · intro hd
    rw [BST_iff_sorted]
    have hnd : (keys (unite A B)).Nodup :=
      hp.nodup_iff.2 (List.Nodup.append nA nB (fun x hxA hxB => hd x hxA hxB))
    exact List.Sorted.lt_of_le (unite_sorted_le A B sA sB) hnd

/-- C9 (amended) at `A` = the tree of 1 (100), 2 (200) and `B` = the tree of 2 (150),
3 (50): the key 2 of both is kept twice. -/
theorem unite_keeps_duplicates_witness :
    keys (unite (build [(1, 100), (2, 200)]) (build [(2, 150), (3, 50)])) = [1, 2, 2, 3] :=
  (unite_keeps_duplicates (build [(1, 100), (2, 200)]) (build [(2, 150), (3, 50)])
    (by decide) (by decide)).1.trans (by decide)

/-- C10: for trees `A`, `B` that each satisfy the heap invariant, whatever their keys,
`unite A B` satisfies the heap invariant. -/
theorem unite_heap (A B : pitem) (hA : Heap A) (hB : Heap B) : Heap (unite A B) :=
  (heap_unite_root A B hA hB).1

/-- C10 at two heaps with a common key and unordered keys. -/
theorem unite_heap_witness :
    Heap (unite (item 2 200 (item 5 100 null null) (item 1 150 null null))
      (item 2 300 null (item 5 20 null null))) :=
  unite_heap (item 2 200 (item 5 100 null null) (item 1 150 null null))
    (item 2 300 null (item 5 20 null null)) (by decide) (by decide)

/-- C11: for every tree `T`, with no invariant assumed, and every pivot `p`,
`split T p = (L, R)` loses and duplicates no node: the multiset of the
`(key, prior)` nodes of `L` together with that of `R` is the multiset of the nodes
of `T`. -/
theorem split_partitions_nodes (T : pitem) (p : Int) :
    (nodes (split T p).1 : Multiset (Int × Int)) + (nodes (split T p).2 : Multiset (Int × Int))
      = (nodes T : Multiset (Int × Int)) ∧
    size (split T p).1 + size (split T p).2 = size T := by
  refine ⟨?_, size_split T p⟩
  rw [Multiset.coe_add, Multiset.coe_eq_coe]
  exact split_perm T p

/-- C12: for a tree `T` with the BST and the heap invariant and a pivot `p`, each of
the two trees returned by `split T p` satisfies the BST invariant and the heap
invariant. -/
theorem split_preserves (T : pitem) (p : Int) (hB : BST T) (hH : Heap T) :
    BST (split T p).1 ∧ Heap (split T p).1 ∧ BST (split T p).2 ∧ Heap (split T p).2 := by
  have hk := split_keys T p (sorted_le_of_BST hB)
  have hs := (BST_iff_sorted T).1 hB
  have hh := split_heap T p hH
  refine ⟨?_, hh.1, ?_, hh.2⟩
  · rw [BST_iff_sorted, hk.1]
    exact hs.sublist (List.filter_sublist _)
  · rw [BST_iff_sorted, hk.2]
    exact hs.sublist (List.filter_sublist _)

/-- C12 at the tree of 1 (100), 2 (200), 3 (700) and the pivot 1. -/
theorem split_preserves_witness :
    BST (split tree123 1).1 ∧ Heap (split tree123 1).1 ∧
    BST (split tree123 1).2 ∧ Heap (split tree123 1).2 :=
  split_preserves tree123 1 (by decide) (by decide)

/-- C13: for every pair of trees `L`, `R`, with no invariant assumed, the in-order
node sequence of `merge L R` is the in-order sequence of `L` followed by the
in-order sequence of `R`; no node is lost and the order is kept. -/
theorem merge_inorder (L R : pitem) :
    nodes (merge L R) = nodes L ++ nodes R ∧ size (merge L R) = size L + size R := by
  refine ⟨merge_nodes L R, ?_⟩
  rw [size_eq_length, size_eq_length, size_eq_length, merge_nodes, List.length_append]

/-- C14: for non-empty trees `L` (root `lk`, `lp`) and `R` (root `rk`, `rp`), the root
of `merge L R` is the root of `L` when `lp > rp`, with the left subtree of `L`
unchanged and `merge L.r R` as right subtree, and it is the root of `R` otherwise, a
tie included, with the right subtree of `R` unchanged and `merge L R.l` as left
subtree. -/
theorem merge_root (lk lp : Int) (ll lr : pitem) (rk rp : Int) (rl rr : pitem) :
    (lp > rp → merge (item lk lp ll lr) (item rk rp rl rr) =
      item lk lp ll (merge lr (item rk rp rl rr))) ∧
    (¬ lp > rp → merge (item lk lp ll lr) (item rk rp rl rr) =
      item rk rp (merge (item lk lp ll lr) rl) rr) ∧
    (lp = rp → merge (item lk lp ll lr) (item rk rp rl rr) =
      item rk rp (merge (item lk lp ll lr) rl) rr) := by
  refine ⟨fun h => ?_, fun h => ?_, fun h => ?_⟩
  · rw [merge, if_pos h]
  · rw [merge, if_neg h]
  · rw [merge, if_neg (by omega)]

/-- C14 at concrete roots: the left root wins with the greater priority, the right
root wins on a tie. -/
theorem merge_root_witness :
    merge (item 1 9 null (item 2 3 null null)) (item 5 4 (item 4 1 null null) null) =
      item 1 9 null (merge (item 2 3 null null) (item 5 4 (item 4 1 null null) null)) ∧
    merge (item 1 4 null (item 2 3 null null)) (item 5 4 (item 4 1 null null) null) =
      item 5 4 (merge (item 1 4 null (item 2 3 null null)) (item 4 1 null null)) null :=
  ⟨(merge_root 1 9 null (item 2 3 null null) 5 4 (item 4 1 null null) null).1 (by decide),
   (merge_root 1 4 null (item 2 3 null null) 5 4 (item 4 1 null null) null).2.2 rfl⟩

/-- C15: for a tree `T` and a new node `(k, p)` whose priority is strictly greater
than every priority in `T`, `insert` makes the new node the root, with the two results
of `split T k` as its left and right child; the heap invariant of `T` is not needed.
Inserting 3 (700) after 1 (100) and 2 (200) makes key 3 the root. -/
theorem insert_top_priority (T : pitem) (k p : Int) (h : ∀ x ∈ nodes T, x.2 < p) :
    insertNew T k p = item k p (split T k).1 (split T k).2 ∧
    insertNew (build [(1, 100), (2, 200)]) 3 700 =
      item 3 700 (item 2 200 (item 1 100 null null) null) null := by
  refine ⟨?_, by decide⟩
  cases T with
  | null => simp [insertNew, insert, split]
  | item tk tp tl tr =>
    have h1 : p > tp := h (tk, tp) (by simp)
    simp [insertNew, insert, h1]

/-- C15 at the tree of 1 (100), 2 (200) and the new node 3 (700). -/
theorem insert_top_priority_witness :
    insertNew (build [(1, 100), (2, 200)]) 3 700 =
      item 3 700 (split (build [(1, 100), (2, 200)]) 3).1
        (split (build [(1, 100), (2, 200)]) 3).2 :=
  (insert_top_priority (build [(1, 100), (2, 200)]) 3 700 (by decide)).1

/-- C16: insertion order does not affect the shape.  For a list of nodes with
pairwise distinct keys and pairwise distinct priorities and any permutation of it,
inserting the nodes one by one into the empty tree in either order gives the
identical tree. -/
theorem build_order_independent (xs ys : List (Int × Int)) (hp : xs.Perm ys)
    (hk : (xs.map Prod.fst).Nodup) (hq : (xs.map Prod.snd).Nodup) :
    build xs = build ys := by
  have hk2 : (ys.map Prod.fst).Nodup := (hp.map Prod.fst).nodup_iff.1 hk
  have hB1 := build_BST xs hk
  have hB2 := build_BST ys hk2
  have hperm : (nodes (build xs)).Perm (nodes (build ys)) :=
    (build_nodes_perm xs).trans (hp.trans (build_nodes_perm ys).symm)
  have hn := nodes_eq_of_perm _ _ hB1 hB2 hperm
  have hd : ((nodes (build xs)).map Prod.snd).Nodup :=
    ((build_nodes_perm xs).map Prod.snd).nodup_iff.2 hq
  exact treap_unique _ _ hB1 (build_heap xs) hB2 (build_heap ys) hn hd

/-- C16 at the nodes 1 (100), 2 (200), 3 (700), inserted in that order and in the
order 3, 1, 2. -/
theorem build_order_independent_witness :
    build [(1, 100), (2, 200), (3, 700)] = build [(3, 700), (1, 100), (2, 200)] :=
  build_order_independent [(1, 100), (2, 200), (3, 700)] [(3, 700), (1, 100), (2, 200)]
    (by decide) (by decide) (by decide)

/-- C17: erase undoes insert.  For a tree `T` in which every priority is strictly
greater than the priorities of the children, a key `k` that is not in `T` and any
priority `p`, `erase` of `k` after `insert` of the new node `(k, p)` succeeds and
returns exactly `T`. -/
theorem erase_undoes_insert (T : pitem) (k p : Int) (hH : StrictHeap T) (hk : k ∉ keys T) :
    erase (insertNew T k p) k = some T :=
  erase_insertNew T k p hH hk

/-- C17 at the tree of 1 (100), 2 (200), 3 (700) and the new node 5 (150). -/
theorem erase_undoes_insert_witness :
    erase (insertNew tree123 5 150) 5 = some tree123 :=
  erase_undoes_insert tree123 5 150 (by decide) (by decide)

/-- C18: merge undoes split.  For a tree `T` in which every priority is strictly
greater than the priorities of the children and any pivot `p`, `merge` of the two
results of `split T p` is `T` itself; with equal parent and child priorities allowed
this fails: the tree with root 1 (priority 5) and right child 2 (priority 5), split at
1, is merged into the tree with root 2. -/
theorem merge_undoes_split (T : pitem) (p : Int) (h : StrictHeap T) :
    merge (split T p).1 (split T p).2 = T ∧
    (BST (item 1 5 null (item 2 5 null null)) ∧ Heap (item 1 5 null (item 2 5 null null)) ∧
      merge (split (item 1 5 null (item 2 5 null null)) 1).1
        (split (item 1 5 null (item 2 5 null null)) 1).2 =
          item 2 5 (item 1 5 null null) null ∧
      merge (split (item 1 5 null (item 2 5 null null)) 1).1
        (split (item 1 5 null (item 2 5 null null)) 1).2 ≠
          item 1 5 null (item 2 5 null null)) := by
  refine ⟨merge_split T p h, by decide, by decide, ?_⟩
  have hm : merge (split (item 1 5 null (item 2 5 null null)) 1).1
      (split (item 1 5 null (item 2 5 null null)) 1).2 =
        item 2 5 (item 1 5 null null) null := by
    simp [split, merge]
  rw [hm]
  exact ⟨rfl, by decide⟩

/-- C18 at the tree of 1 (100), 2 (200), 3 (700) and the pivot 1. -/
theorem merge_undoes_split_witness :
    merge (split tree123 1).1 (split tree123 1).2 = tree123 :=
  (merge_undoes_split tree123 1 (by decide)).1

/-- C19: `unite` discards no node.  For trees `A`, `B` whose in-order key sequences
are non-decreasing, the in-order key sequence of `unite A B` is the sorted list of
the keys of `A` followed by the keys of `B`; the nodes of the result are the nodes of
both, so every key occurs as often as in `A` and `B` together and a key of both
occurs at least twice. -/
theorem unite_discards_no_node (A B : pitem) (hA : (keys A).Sorted (· ≤ ·))
    (hB : (keys B).Sorted (· ≤ ·)) :
    keys (unite A B) = (keys A ++ keys B).insertionSort (· ≤ ·) ∧
    (nodes (unite A B)).Perm (nodes A ++ nodes B) ∧
    (∀ x, (keys (unite A B)).count x = (keys A).count x + (keys B).count x) ∧
    (∀ x, x ∈ keys A → x ∈ keys B → 2 ≤ (keys (unite A B)).count x) := by
  have hc : ∀ x, (keys (unite A B)).count x = (keys A).count x + (keys B).count x := by
    intro x
    rw [(unite_keys_perm A B).count_eq, List.count_append]
  refine ⟨unite_keys A B hA hB, unite_perm A B, hc, ?_⟩
  intro x hxA hxB
  have h1 := List.count_pos_iff.2 hxA
  have h2 := List.count_pos_iff.2 hxB
  rw [hc x]
  omega

/-- C19 at `A` = the tree after `main`'s inserts of 1 (100) and 1 (300) and `B` = the
tree of 1 (50), 4 (20): all three nodes of key 1 are kept. -/
theorem unite_discards_no_node_witness :
    keys (unite (build [(1, 100), (1, 300)]) (build [(1, 50), (4, 20)])) = [1, 1, 1, 4] :=
  (unite_discards_no_node (build [(1, 100), (1, 300)]) (build [(1, 50), (4, 20)])
    (by decide) (by decide)).1.trans (by decide)

/-- C20: `unite` terminates on every pair of trees.  The two trees returned by
`split r key` have together exactly as many nodes as `r`, so both recursive calls of
`unite` on non-empty `l` (the root kept) and `r` have a strictly smaller combined node
count; run with a bound on the depth of the recursion, `unite` returns its result as
soon as the bound exceeds the combined node count, and the result has the nodes of
both trees. -/
theorem unite_terminates (l r : pitem) :
    (∀ key, size (split r key).1 + size (split r key).2 = size r) ∧
    (∀ lk lp ll lr, l = item lk lp ll lr →
      size ll + size (split r lk).1 < size l + size r ∧
      size lr + size (split r lk).2 < size l + size r) ∧
    (∀ n, size l + size r < n → uniteDepth n l r = some (unite l r)) ∧
    size (unite l r) = size l + size r := by
  refine ⟨fun key => size_split r key, ?_, fun n hn => uniteDepth_eq n l r hn, ?_⟩
  · rintro lk lp ll lr rfl
    have hs := size_split r lk
    simp only [size]
    omega
  · rw [size_eq_length, size_eq_length, size_eq_length, (unite_perm l r).length_eq,
      List.length_append]

/-- C20 at two trees of two nodes each: a depth of five suffices. -/
theorem unite_terminates_witness :
    uniteDepth 5 (build [(1, 100), (2, 200)]) (build [(2, 150), (3, 50)]) =
      some (unite (build [(1, 100), (2, 200)]) (build [(2, 150), (3, 50)])) :=
  (unite_terminates (build [(1, 100), (2, 200)]) (build [(2, 150), (3, 50)])).2.2.1 5
    (by decide)

end Treap
